import Mathlib

/-!
Shallow embedding of the Connect4 rules engine (src/games/connect4.py) and
verification of its specification claims.

The Python module stores the board as a numpy integer matrix of shape
board_size (default 6 x 7, row 0 at the top), with 0 for an empty cell and a
player's numeric value for an occupied cell.  Here the grid is a list of rows,
each row a list of naturals, and numpy indexing is modelled with getD
(out-of-range reads default to 0, which never happens on the in-range reads
the code performs).  The random draw of np.random.choice is modelled by an
extra index parameter k, reduced modulo the number of legal plays.
-/

namespace Connect4

/-- Player record: mirrors the Python Player class (name, value, display).
Python compares players by value; the two registered players have distinct
values, so structural equality coincides with value equality on them. -/
structure Player where
  name : String
  value : Nat
  display : String
deriving DecidableEq, Repr

/-- The first registered player: name A, value 1, display O. -/
def pA : Player := ⟨"A", 1, "O"⟩

/-- The second registered player: name B, value 2, display X. -/
def pB : Player := ⟨"B", 2, "X"⟩

/-- The grid: a list of rows, each row a list of cell values. -/
abbrev Grid := List (List Nat)

/-- Row r of the grid, numpy x[r]; the empty row when out of range. -/
def rowAt (x : Grid) (r : Nat) : List Nat := x[r]?.getD []

/-- Read cell (r, c) of the grid, numpy x[r, c]; 0 when out of range. -/
def cellAt (x : Grid) (r c : Nat) : Nat := ((rowAt x r)[c]?).getD 0

/-- Write cell (r, c) of the grid, numpy x[r, c] = v. -/
def setCell (x : Grid) (r c v : Nat) : Grid := x.set r ((rowAt x r).set c v)

/-- Game state: the fields of the Python Game object.  The itertools.cycle
generator over the two players is determined by current_player (the value it
yielded last), so it is not a separate field; next_player models one step of
the cycle. -/
structure Game where
  board_size : Nat × Nat
  state : Grid
  save_history : Bool
  history : List Grid
  last_play : Option Nat
  players : List Player
  current_player : Player
  winner_ : Option Player
deriving DecidableEq, Repr

/-- Game.__init__: zero grid of shape board_size, history holding a copy of
the initial state, players A and B, current player the first yield of
cycle(players), no winner. -/
def initGame (rows cols : Nat) (sh : Bool) : Game :=
  let st : Grid := List.replicate rows (List.replicate cols 0)
  { board_size := (rows, cols), state := st, save_history := sh,
    history := [st], last_play := none, players := [pA, pB],
    current_player := pA, winner_ := none }

/-- The stored players_values list [p.value for p in self.players]. -/
def Game.players_values (g : Game) : List Nat := g.players.map (fun p => p.value)

/-- One step of the cyclic players generator: the element after the one most
recently yielded (current_player), wrapping around after the second. -/
def Game.next_player (g : Game) : Player :=
  if g.current_player.value = (g.players.getD 0 pA).value then g.players.getD 1 pA
  else g.players.getD 0 pA

/-- The winner method: returns the winner_ field. -/
def Game.winner (g : Game) : Option Player := g.winner_

/-- Number of free cells of column c: that column of
np.isin(self.state, self.players_values, invert=True).sum(axis=0). -/
def colFree (g : Game) (c : Nat) : Nat :=
  ((List.range g.board_size.1).filter
    (fun r => !(g.players_values.contains (cellAt g.state r c)))).length

/-- legal_plays: empty when a winner is set, otherwise the ascending list of
column indices with at least one free cell
(np.argwhere(free_spaces.sum(axis=0)).ravel().tolist()). -/
def Game.legal_plays (g : Game) : List Nat :=
  if (g.winner).isSome then []
  else (List.range g.board_size.2).filter (fun c => colFree g c != 0)

/-- Number of occupied cells of column c: sum(self.state[:, c] != 0). -/
def colCount (g : Game) (c : Nat) : Nat :=
  ((List.range g.state.length).filter (fun r => cellAt g.state r c != 0)).length

/-- The landing row of a drop in column m:
self.board_size[0] - sum(self.state[:, m] != 0) - 1. -/
def landingRow (g : Game) (m : Nat) : Nat := g.board_size.1 - colCount g m - 1

/-- A slice: the list [f 0, ..., f (n-1)], used for all four checked spaces. -/
def sliceMap (n : Nat) (f : Nat → Nat) : List Nat := (List.range n).map f

/-- The column-reversed matrix x[:, ::-1]. -/
def flipCols (x : Grid) : Grid := x.map List.reverse

/-- np.diagonal(x, offset): for offset >= 0 the elements x[t, t+offset],
for offset < 0 the elements x[t-offset, t], as many as fit the shape. -/
def npDiagonal (x : Grid) (offset : Int) : List Nat :=
  let R := x.length
  let C := (rowAt x 0).length
  if 0 ≤ offset then
    sliceMap (min R (C - offset.toNat)) (fun t => cellAt x t (t + offset.toNat))
  else
    sliceMap (min (R - (-offset).toNat) C) (fun t => cellAt x (t + (-offset).toNat) t)

/-- The four spaces checked for a win after a placement at (i, j):
x[max(i-3,0):i+4, j], x[i, max(j-3,0):j+4], np.diagonal(x, offset=j-i),
np.diagonal(x[:, ::-1], offset=len(x)-(i+j)). -/
def spacesToCheck (x : Grid) (i j : Nat) : List (List Nat) :=
  [ sliceMap (min (i + 4) x.length - (i - 3)) (fun t => cellAt x (i - 3 + t) j),
    sliceMap (min (j + 4) (rowAt x i).length - (j - 3)) (fun t => cellAt x i (j - 3 + t)),
    npDiagonal x ((j : Int) - (i : Int)),
    npDiagonal (flipCols x) ((x.length : Int) - ((i + j : Nat) : Int)) ]

/-- The substring test pattern in space_as_text: all cell values are single
digits (0, 1 or 2), so the string containment of the Python code is exactly
containment of the four-fold repetition of the player's value as a
contiguous sublist of the space. -/
def hasPattern (v : Nat) (space : List Nat) : Bool :=
  decide (List.replicate 4 v <:+: space)

/-- The winner-detection loop over the four spaces. -/
def winCheck (x : Grid) (i j v : Nat) : Bool :=
  (spacesToCheck x i j).any (fun s => hasPattern v s)

/-- The state-update part of play, after a legal move has been selected:
drop the piece, record last_play, extend or collapse the history, then set
the winner and stop, or else advance the player cycle. -/
def Game.applyMove (g : Game) (m : Nat) : Game :=
  let st := setCell g.state (landingRow g m) m g.current_player.value
  let hist := if g.save_history then g.history ++ [st] else [st]
  if winCheck st (landingRow g m) m g.current_player.value then
    { g with state := st, history := hist, last_play := some m,
             winner_ := some g.current_player }
  else
    { g with state := st, history := hist, last_play := some m,
             current_player := g.next_player }

/-- The two failure modes of play: an explicit move outside legal_plays
(ValueError: Selected move is illegal), and a random draw from an empty
legal set (np.random.choice raises on an empty range). -/
inductive PlayError where
  | illegalMove
  | noLegalMoves
deriving DecidableEq, Repr

/-- The random selection legal_plays[np.random.choice(len(legal_plays), 1)[0]]
with the drawn index modelled by k modulo the number of legal plays. -/
def selectedRandom (lp : List Nat) (k : Nat) : Nat := lp.getD (k % lp.length) 0

/-- The play method.  A provided move is validated against legal_plays and
rejected when absent; an omitted move is drawn from the legal set, which
fails when that set is empty.  The selected move is then applied. -/
def Game.play (g : Game) (move : Option Nat) (k : Nat) : Except PlayError Game :=
  let lp := g.legal_plays
  match move with
  | some m =>
      if m ∈ lp then Except.ok (g.applyMove m)
      else Except.error PlayError.illegalMove
  | none =>
      if lp.length = 0 then Except.error PlayError.noLegalMoves
      else Except.ok (g.applyMove (selectedRandom lp k))

/-- The column actually played by a call to play, when it succeeds. -/
def playedCol (g : Game) (move : Option Nat) (k : Nat) : Nat :=
  match move with
  | some m => m
  | none => selectedRandom g.legal_plays k

/-- Total wrapper around play used to name concrete post-states: the new
state on success, the unchanged state on failure. -/
def playOk (g : Game) (move : Option Nat) (k : Nat) : Game :=
  match g.play move k with
  | Except.ok g' => g'
  | Except.error _ => g

/-- Sequential application of a list of explicit moves, failing when any of
them is rejected. -/
def applyPlays (g : Game) (ms : List Nat) : Option Game :=
  match ms with
  | [] => some g
  | m :: rest =>
      match g.play (some m) 0 with
      | Except.ok g' => applyPlays g' rest
      | Except.error _ => none

/-- Total wrapper around applyPlays naming the resulting concrete state. -/
def applyPlaysD (g : Game) (ms : List Nat) : Game := (applyPlays g ms).getD g

/-- The states reachable from a freshly constructed default game by accepted
moves. -/
inductive Reachable : Game → Prop where
  | base : ∀ sh, Reachable (initGame 6 7 sh)
  | step : ∀ {g g' : Game} (mv : Option Nat) (k : Nat),
      Reachable g → g.play mv k = Except.ok g' → Reachable g'

/-- Number of occupied (non-Empty) cells of the whole grid. -/
def occupiedCount (g : Game) : Nat :=
  ((List.range g.board_size.1).map
    (fun r => ((List.range g.board_size.2).filter
      (fun c => cellAt g.state r c != 0)).length)).sum

/-- Well-formed 6 x 7 grid: six rows of seven cells. -/
def gridWF (x : Grid) : Prop :=
  x.length = 6 ∧ ∀ r < 6, (rowAt x r).length = 7

/-- Invariant of reachable states: default shape, the fixed player pair,
cell values among 0, 1, 2, and every column bottom-justified (a cell is
occupied exactly when it sits at or below the landing level). -/
def Inv (g : Game) : Prop :=
  g.board_size = (6, 7) ∧ gridWF g.state ∧
  g.players = [pA, pB] ∧ (g.current_player = pA ∨ g.current_player = pB) ∧
  g.history ≠ [] ∧
  (∀ r c, cellAt g.state r c = 0 ∨ cellAt g.state r c = 1 ∨ cellAt g.state r c = 2) ∧
  (∀ c, ∀ r < 6, (cellAt g.state r c ≠ 0 ↔ 6 - colCount g c ≤ r))

/-- Four consecutive cells of the current player inside the checked vertical
segment of column j (rows max(i-3,0) through min(i+3, 5)). -/
def fourInColumn (x : Grid) (i j v : Nat) : Prop :=
  ∃ r, i - 3 ≤ r ∧ r + 4 ≤ min (i + 4) 6 ∧ ∀ s < 4, cellAt x (r + s) j = v

/-- Four consecutive cells of the current player inside the checked
horizontal segment of row i (columns max(j-3,0) through min(j+3, 6)). -/
def fourInRow (x : Grid) (i j v : Nat) : Prop :=
  ∃ c, j - 3 ≤ c ∧ c + 4 ≤ min (j + 4) 7 ∧ ∀ s < 4, cellAt x i (c + s) = v

/-- Four consecutive cells of the current player on the top-left to
bottom-right diagonal through (i, j). -/
def fourInDiag (x : Grid) (i j v : Nat) : Prop :=
  ∃ r c : Nat, (c : Int) - (r : Int) = (j : Int) - (i : Int) ∧ r + 4 ≤ 6 ∧ c + 4 ≤ 7 ∧
    ∀ s < 4, cellAt x (r + s) (c + s) = v

/-- Four consecutive cells of the current player on the bottom-left to
top-right diagonal through (i, j). -/
def fourInAntiDiag (x : Grid) (i j v : Nat) : Prop :=
  ∃ r c, r + c = i + j ∧ r + 4 ≤ 6 ∧ 3 ≤ c ∧ c ≤ 6 ∧
    ∀ s < 4, cellAt x (r + s) (c - s) = v

/-- One of the four lines through the placement (i, j) carries four
consecutive cells of value v. -/
def winningPlacement (x : Grid) (i j v : Nat) : Prop :=
  fourInColumn x i j v ∨ fourInRow x i j v ∨ fourInDiag x i j v ∨ fourInAntiDiag x i j v

/-! ### Basic list access lemmas -/

theorem sliceMap_length (n : Nat) (f : Nat → Nat) : (sliceMap n f).length = n := by
  simp [sliceMap]

theorem sliceMap_getElem? {n t : Nat} (f : Nat → Nat) (h : t < n) :
    (sliceMap n f)[t]? = some (f t) := by
  have ht : t < (List.range n).length := by simpa using h
  simp [sliceMap, List.getElem?_eq_getElem ht]

theorem rowAt_setCell (x : Grid) (r c v r' : Nat) :
    rowAt (setCell x r c v) r' =
      if r = r' ∧ r < x.length then (rowAt x r).set c v else rowAt x r' := by
  unfold setCell
  by_cases h1 : r = r'
  · subst h1
    by_cases h2 : r < x.length
    · simp [rowAt, List.getElem?_set_self h2, h2]
    · rw [if_neg (fun hh => h2 hh.2)]
      unfold rowAt
      rw [List.set_eq_of_length_le (Nat.le_of_not_lt h2)]
  · rw [if_neg (fun hh => h1 hh.1)]
    unfold rowAt
    rw [List.getElem?_set_ne h1]

theorem cellAt_setCell_self {x : Grid} {r c : Nat} (v : Nat) (hr : r < x.length)
    (hc : c < (rowAt x r).length) : cellAt (setCell x r c v) r c = v := by
  unfold cellAt
  rw [rowAt_setCell, if_pos ⟨rfl, hr⟩, List.getElem?_set_self hc]
  rfl

theorem cellAt_setCell_ne {x : Grid} {r c : Nat} (v : Nat) {r' c' : Nat}
    (h : r' ≠ r ∨ c' ≠ c) : cellAt (setCell x r c v) r' c' = cellAt x r' c' := by
  unfold cellAt
  rw [rowAt_setCell]
  rcases h with h | h
  · rw [if_neg (fun hh => h hh.1.symm)]
  · by_cases hrr : r = r' ∧ r < x.length
    · rw [if_pos hrr]
      obtain ⟨he, _⟩ := hrr
      subst he
      rw [List.getElem?_set_ne (fun hh => h hh.symm)]
    · rw [if_neg hrr]

theorem setCell_length (x : Grid) (r c v : Nat) : (setCell x r c v).length = x.length := by
  simp [setCell]

theorem gridWF_setCell {x : Grid} (r c v : Nat) (h : gridWF x) :
    gridWF (setCell x r c v) := by
  obtain ⟨h1, h2⟩ := h
  refine ⟨by simpa [setCell] using h1, fun r' hr' => ?_⟩
  rw [rowAt_setCell]
  by_cases hrr : r = r' ∧ r < x.length
  · rw [if_pos hrr, List.length_set]
    exact hrr.1 ▸ h2 r' hr'
  · rw [if_neg hrr]
    exact h2 r' hr'

/-! ### Counting lemmas: flipping a single position -/

theorem filter_length_flip (l : List Nat) (p q : Nat → Bool) (c : Nat)
    (hnd : l.Nodup) (hc : c ∈ l) (hagree : ∀ x ∈ l, x ≠ c → q x = p x)
    (hq : q c = true) (hp : p c = false) :
    (l.filter q).length = (l.filter p).length + 1 := by
  induction l with
  | nil => cases hc
  | cons a t ih =>
      rcases List.nodup_cons.mp hnd with ⟨hat, hndt⟩
      by_cases hac : a = c
      · subst hac
        have hqt : t.filter q = t.filter p := by
          apply List.filter_congr
          intro x hx
          exact hagree x (List.mem_cons_of_mem _ hx) (fun hxa => hat (hxa ▸ hx))
        simp [List.filter_cons, hq, hp, hqt]
      · have hct : c ∈ t := by
          rcases List.mem_cons.mp hc with h | h
          · exact absurd h.symm hac
          · exact h
        have hqa : q a = p a :=
          hagree a (List.mem_cons_self _ _) hac
        have := ih hndt hct (fun x hx => hagree x (List.mem_cons_of_mem _ hx))
        by_cases hpa : p a = true
        · simp [List.filter_cons, hpa, hqa.trans hpa, this]
        · have hpa' : p a = false := by simpa using hpa
          simp [List.filter_cons, hpa', hqa.trans hpa', this]

theorem sum_map_flip (l : List Nat) (f f' : Nat → Nat) (r0 : Nat)
    (hnd : l.Nodup) (hr : r0 ∈ l) (hagree : ∀ x ∈ l, x ≠ r0 → f' x = f x)
    (hflip : f' r0 = f r0 + 1) :
    (l.map f').sum = (l.map f).sum + 1 := by
  induction l with
  | nil => cases hr
  | cons a t ih =>
      rcases List.nodup_cons.mp hnd with ⟨hat, hndt⟩
      by_cases har : a = r0
      · subst har
        have ht : t.map f' = t.map f := by
          apply List.map_congr_left
          intro x hx
          exact hagree x (List.mem_cons_of_mem _ hx) (fun hxa => hat (hxa ▸ hx))
        simp [ht, hflip]
        omega
      · have hrt : r0 ∈ t := by
          rcases List.mem_cons.mp hr with h | h
          · exact absurd h.symm har
          · exact h
        have := ih hndt hrt (fun x hx => hagree x (List.mem_cons_of_mem _ hx))
        simp [hagree a (List.mem_cons_self _ _) har, this]
        omega

/-! ### Legal-play and play unfolding lemmas -/

theorem players_values_eq {g : Game} (h : g.players = [pA, pB]) :
    g.players_values = [1, 2] := by
  simp [Game.players_values, h, pA, pB]

theorem mem_legal_plays {g : Game} {m : Nat} :
    m ∈ g.legal_plays ↔ g.winner_ = none ∧ m < g.board_size.2 ∧ colFree g m ≠ 0 := by
  unfold Game.legal_plays Game.winner
  cases hw : g.winner_ with
  | none => simp [List.mem_filter]
  | some p => simp

theorem legal_plays_sorted (g : Game) : g.legal_plays.Pairwise (· < ·) := by
  unfold Game.legal_plays
  split
  · exact List.Pairwise.nil
  · exact (List.pairwise_lt_range _).filter _

theorem legal_plays_of_winner {g : Game} (h : g.winner_ ≠ none) : g.legal_plays = [] := by
  unfold Game.legal_plays Game.winner
  rw [if_pos (Option.isSome_iff_ne_none.mpr h)]

theorem play_some_ok {g g' : Game} {m k : Nat} :
    g.play (some m) k = Except.ok g' ↔ m ∈ g.legal_plays ∧ g' = g.applyMove m := by
  show (if m ∈ g.legal_plays then Except.ok (g.applyMove m)
    else Except.error PlayError.illegalMove) = Except.ok g' ↔ _
  by_cases h : m ∈ g.legal_plays
  · rw [if_pos h]
    constructor
    · intro hh
      cases hh
      exact ⟨h, rfl⟩
    · intro hh
      rw [hh.2]
  · rw [if_neg h]
    constructor
    · intro hh
      simp at hh
    · intro hh
      exact absurd hh.1 h

theorem play_none_ok {g g' : Game} {k : Nat} :
    g.play none k = Except.ok g' ↔
      g.legal_plays ≠ [] ∧ g' = g.applyMove (selectedRandom g.legal_plays k) := by
  show (if g.legal_plays.length = 0 then Except.error PlayError.noLegalMoves
    else Except.ok (g.applyMove (selectedRandom g.legal_plays k))) = Except.ok g' ↔ _
  by_cases h : g.legal_plays.length = 0
  · simp [h, List.length_eq_zero.mp h]
  · have hne : g.legal_plays ≠ [] := fun hh => h (by simp [hh])
    simp only [if_neg h, hne, Ne, not_false_eq_true, true_and]
    exact ⟨fun hh => by cases hh; rfl, fun hh => by rw [hh]⟩

theorem play_illegal {g : Game} {m k : Nat} (h : m ∉ g.legal_plays) :
    g.play (some m) k = Except.error PlayError.illegalMove := by
  simp [Game.play, h]

theorem play_no_legal {g : Game} {k : Nat} (h : g.legal_plays = []) :
    g.play none k = Except.error PlayError.noLegalMoves := by
  simp [Game.play, h]

theorem selectedRandom_mem {lp : List Nat} (k : Nat) (h : lp ≠ []) :
    selectedRandom lp k ∈ lp := by
  have hl : 0 < lp.length := List.length_pos.mpr h
  have hk : k % lp.length < lp.length := Nat.mod_lt _ hl
  unfold selectedRandom
  rw [List.getD_eq_getElem?_getD, List.getElem?_eq_getElem hk]
  exact List.getElem_mem _

theorem play_ok_cases {g g' : Game} {mv : Option Nat} {k : Nat}
    (h : g.play mv k = Except.ok g') :
    playedCol g mv k ∈ g.legal_plays ∧ g' = g.applyMove (playedCol g mv k) := by
  cases mv with
  | some m =>
      obtain ⟨h1, h2⟩ := play_some_ok.mp h
      exact ⟨h1, h2⟩
  | none =>
      obtain ⟨h1, h2⟩ := play_none_ok.mp h
      exact ⟨selectedRandom_mem k h1, h2⟩

/-! ### applyMove projections -/

theorem applyMove_state (g : Game) (m : Nat) :
    (g.applyMove m).state = setCell g.state (landingRow g m) m g.current_player.value := by
  unfold Game.applyMove
  by_cases h : winCheck (setCell g.state (landingRow g m) m g.current_player.value)
      (landingRow g m) m g.current_player.value <;> simp [h]

theorem applyMove_board_size (g : Game) (m : Nat) :
    (g.applyMove m).board_size = g.board_size := by
  unfold Game.applyMove
  by_cases h : winCheck (setCell g.state (landingRow g m) m g.current_player.value)
      (landingRow g m) m g.current_player.value <;> simp [h]

theorem applyMove_save_history (g : Game) (m : Nat) :
    (g.applyMove m).save_history = g.save_history := by
  unfold Game.applyMove
  by_cases h : winCheck (setCell g.state (landingRow g m) m g.current_player.value)
      (landingRow g m) m g.current_player.value <;> simp [h]

theorem applyMove_players (g : Game) (m : Nat) :
    (g.applyMove m).players = g.players := by
  unfold Game.applyMove
  by_cases h : winCheck (setCell g.state (landingRow g m) m g.current_player.value)
      (landingRow g m) m g.current_player.value <;> simp [h]

theorem applyMove_last_play (g : Game) (m : Nat) :
    (g.applyMove m).last_play = some m := by
  unfold Game.applyMove
  by_cases h : winCheck (setCell g.state (landingRow g m) m g.current_player.value)
      (landingRow g m) m g.current_player.value <;> simp [h]

theorem applyMove_history (g : Game) (m : Nat) :
    (g.applyMove m).history =
      if g.save_history then g.history ++ [(g.applyMove m).state]
      else [(g.applyMove m).state] := by
  rw [applyMove_state]
  unfold Game.applyMove
  by_cases h : winCheck (setCell g.state (landingRow g m) m g.current_player.value)
      (landingRow g m) m g.current_player.value <;> simp [h]

theorem applyMove_winner (g : Game) (m : Nat) :
    (g.applyMove m).winner_ =
      if winCheck (g.applyMove m).state (landingRow g m) m g.current_player.value
      then some g.current_player else g.winner_ := by
  rw [applyMove_state]
  unfold Game.applyMove
  by_cases h : winCheck (setCell g.state (landingRow g m) m g.current_player.value)
      (landingRow g m) m g.current_player.value <;> simp [h]

theorem applyMove_current (g : Game) (m : Nat) :
    (g.applyMove m).current_player =
      if winCheck (g.applyMove m).state (landingRow g m) m g.current_player.value
      then g.current_player else g.next_player := by
  rw [applyMove_state]
  unfold Game.applyMove
  by_cases h : winCheck (setCell g.state (landingRow g m) m g.current_player.value)
      (landingRow g m) m g.current_player.value <;> simp [h]

/-! ### The reachable-state invariant -/

theorem cellAt_init (r c : Nat) :
    cellAt (List.replicate 6 (List.replicate 7 (0 : Nat))) r c = 0 := by
  unfold cellAt rowAt
  rw [List.getElem?_replicate]
  by_cases hr : r < 6
  · rw [if_pos hr]
    show ((List.replicate 7 (0 : Nat))[c]?).getD 0 = 0
    rw [List.getElem?_replicate]
    by_cases hc : c < 7
    · rw [if_pos hc]
      rfl
    · rw [if_neg hc]
      rfl
  · rw [if_neg hr]
    rfl

theorem inv_init (sh : Bool) : Inv (initGame 6 7 sh) := by
  have hcell : ∀ r c, cellAt (initGame 6 7 sh).state r c = 0 := fun r c => cellAt_init r c
  have hcount : ∀ c, colCount (initGame 6 7 sh) c = 0 := by
    intro c
    unfold colCount
    have : ∀ r ∈ List.range (initGame 6 7 sh).state.length,
        ¬((cellAt (initGame 6 7 sh).state r c != 0) = true) := by
      intro r _
      simp [hcell]
    rw [List.filter_eq_nil_iff.mpr this]
    rfl
  refine ⟨rfl, ⟨rfl, ?_⟩, rfl, Or.inl rfl, by simp [initGame], fun r c => Or.inl (hcell r c), ?_⟩
  · intro r hr
    show ((List.replicate 6 (List.replicate 7 (0 : Nat)))[r]?.getD []).length = 7
    rw [List.getElem?_replicate, if_pos hr]
    rfl
  · intro c r hr
    rw [hcount c]
    constructor
    · intro hne
      exact absurd (hcell r c) hne
    · intro hle
      omega

theorem filter_length_lt {α : Type} (l : List α) (p : α → Bool) (a : α)
    (ha : a ∈ l) (hpa : p a = false) : (l.filter p).length < l.length := by
  induction l with
  | nil => cases ha
  | cons b t ih =>
      rw [List.filter_cons]
      by_cases hb : p b = true
      · rw [if_pos hb]
        have hat : a ∈ t := by
          rcases List.mem_cons.mp ha with h | h
          · rw [h, hb] at hpa
            cases hpa
          · exact h
        have := ih hat
        simp only [List.length_cons]
        omega
      · rw [if_neg hb]
        have := List.length_filter_le p t
        simp only [List.length_cons]
        omega

theorem legal_sound {g : Game} {m : Nat} (hInv : Inv g) (hm : m ∈ g.legal_plays) :
    g.winner_ = none ∧ m < 7 ∧ colCount g m < 6 ∧
      landingRow g m = 6 - colCount g m - 1 ∧ landingRow g m < 6 ∧
      cellAt g.state (landingRow g m) m = 0 ∧
      (g.current_player.value = 1 ∨ g.current_player.value = 2) := by
  obtain ⟨hbs, hWF, hpl, hcp, hh, hvals, hbot⟩ := hInv
  rw [mem_legal_plays] at hm
  obtain ⟨hw, hm2, hm3⟩ := hm
  have hm7 : m < 7 := by rw [hbs] at hm2; exact hm2
  have hfree : ∃ r < 6, cellAt g.state r m = 0 := by
    unfold colFree at hm3
    have hne : (List.range g.board_size.1).filter
        (fun r => !(g.players_values.contains (cellAt g.state r m))) ≠ [] := by
      intro hnil
      exact hm3 (by rw [hnil]; rfl)
    obtain ⟨r, hrmem⟩ := List.exists_mem_of_ne_nil _ hne
    rw [List.mem_filter] at hrmem
    obtain ⟨hrr, hrp⟩ := hrmem
    rw [hbs] at hrr
    have hr6 : r < 6 := List.mem_range.mp hrr
    refine ⟨r, hr6, ?_⟩
    rw [players_values_eq hpl] at hrp
    rcases hvals r m with h0 | h1 | h2
    · exact h0
    · rw [h1] at hrp
      simp at hrp
    · rw [h2] at hrp
      simp at hrp
  obtain ⟨r, hr6, hr0⟩ := hfree
  have hcnt : colCount g m < 6 := by
    unfold colCount
    rw [hWF.1]
    have := filter_length_lt (List.range 6) (fun r => cellAt g.state r m != 0) r
      (List.mem_range.mpr hr6) (by simp [hr0])
    simpa using this
  have hlr : landingRow g m = 6 - colCount g m - 1 := by
    unfold landingRow
    rw [hbs]
  have hlr6 : landingRow g m < 6 := by omega
  have hcell : cellAt g.state (landingRow g m) m = 0 := by
    by_contra hne
    have := (hbot m (landingRow g m) hlr6).mp hne
    omega
  have hval : g.current_player.value = 1 ∨ g.current_player.value = 2 := by
    rcases hcp with h | h
    · rw [h]
      exact Or.inl rfl
    · rw [h]
      exact Or.inr rfl
  exact ⟨hw, hm7, hcnt, hlr, hlr6, hcell, hval⟩

theorem next_player_mem {g : Game} (hpl : g.players = [pA, pB])
    (hcp : g.current_player = pA ∨ g.current_player = pB) :
    (g.next_player = pA ∨ g.next_player = pB) ∧ g.next_player ≠ g.current_player := by
  unfold Game.next_player
  rw [hpl]
  rcases hcp with h | h <;> rw [h] <;> decide

theorem colCount_state_only {g g' : Game} (c : Nat)
    (hs : ∀ r, cellAt g'.state r c = cellAt g.state r c)
    (hl : g'.state.length = g.state.length) : colCount g' c = colCount g c := by
  unfold colCount
  rw [hl]
  congr 1
  apply List.filter_congr
  intro r _
  rw [hs r]

theorem inv_applyMove {g : Game} {m : Nat} (hInv : Inv g) (hm : m ∈ g.legal_plays) :
    Inv (g.applyMove m) := by
  obtain ⟨hw, hm7, hcnt, hlr, hlr6, hcell, hval⟩ := legal_sound hInv hm
  obtain ⟨hbs, hWF, hpl, hcp, hh, hvals, hbot⟩ := hInv
  have hvne : g.current_player.value ≠ 0 := by rcases hval with h | h <;> omega
  have hst := applyMove_state g m
  have hrow7 : (rowAt g.state (landingRow g m)).length = 7 := hWF.2 _ hlr6
  have hlen6 : g.state.length = 6 := hWF.1
  -- cell transitions
  have hself : cellAt (g.applyMove m).state (landingRow g m) m = g.current_player.value := by
    rw [hst]
    exact cellAt_setCell_self _ (by omega) (by omega)
  have hother : ∀ r c, r ≠ landingRow g m ∨ c ≠ m →
      cellAt (g.applyMove m).state r c = cellAt g.state r c := by
    intro r c hrc
    rw [hst]
    exact cellAt_setCell_ne _ hrc
  have hlen' : (g.applyMove m).state.length = 6 := by
    rw [hst, setCell_length, hlen6]
  -- the column count of column m increments
  have hcount' : colCount (g.applyMove m) m = colCount g m + 1 := by
    unfold colCount
    rw [hlen', hlen6]
    exact filter_length_flip (List.range 6) _ _ (landingRow g m) (List.nodup_range 6)
      (List.mem_range.mpr hlr6)
      (fun r _ hr => by rw [hother r m (Or.inl hr)])
      (by simp [hself, hvne])
      (by simp [hcell])
  have hcount_ne : ∀ c, c ≠ m → colCount (g.applyMove m) c = colCount g c := by
    intro c hc
    exact colCount_state_only c (fun r => hother r c (Or.inr hc)) (by rw [hlen', hlen6])
  refine ⟨by rw [applyMove_board_size, hbs], by rw [hst]; exact gridWF_setCell _ _ _ hWF,
    by rw [applyMove_players, hpl], ?_, ?_, ?_, ?_⟩
  · rw [applyMove_current]
    split
    · exact hcp
    · exact (next_player_mem hpl hcp).1
  · rw [applyMove_history]
    split
    · exact List.append_ne_nil_of_right_ne_nil _ (by simp)
    · simp
  · intro r c
    by_cases hrc : r = landingRow g m ∧ c = m
    · obtain ⟨h1, h2⟩ := hrc
      rw [h1, h2, hself]
      rcases hval with h | h
      · exact Or.inr (Or.inl h)
      · exact Or.inr (Or.inr h)
    · rw [hother r c (not_and_or.mp hrc)]
      exact hvals r c
  · intro j r hr
    by_cases hc : j = m
    · rw [hc, hcount']
      by_cases hrr : r = landingRow g m
      · rw [hrr, hself]
        constructor
        · intro _
          omega
        · intro _
          exact hvne
      · rw [hother r m (Or.inl hrr), hbot m r hr]
        omega
    · rw [hcount_ne j hc, hother r j (Or.inr hc)]
      exact hbot j r hr

theorem inv_play {g g' : Game} {mv : Option Nat} {k : Nat} (hInv : Inv g)
    (h : g.play mv k = Except.ok g') : Inv g' := by
  obtain ⟨hmem, heq⟩ := play_ok_cases h
  rw [heq]
  exact inv_applyMove hInv hmem

theorem reachable_inv {g : Game} (h : Reachable g) : Inv g := by
  induction h with
  | base sh => exact inv_init sh
  | step mv k _ hok ih => exact inv_play ih hok

/-! ### Characterisation of the four checked spaces -/

theorem hasPattern_iff {v : Nat} {l : List Nat} :
    hasPattern v l = true ↔ ∃ t, t + 4 ≤ l.length ∧ ∀ s < 4, l[t + s]? = some v := by
  unfold hasPattern
  rw [decide_eq_true_eq]
  constructor
  · rintro ⟨s, t', hst⟩
    refine ⟨s.length, ?_, ?_⟩
    · rw [← hst]
      simp
    · intro s' hs'
      rw [← hst, List.getElem?_append_left (by simp; omega),
        List.getElem?_append_right (by omega),
        (show s.length + s' - s.length = s' by omega)]
      exact List.getElem?_replicate_of_lt hs'
  · rintro ⟨t, hlen, hcells⟩
    refine ⟨l.take t, l.drop (t + 4), ?_⟩
    have hmid : (l.drop t).take 4 = List.replicate 4 v := by
      rw [List.eq_replicate_iff]
      constructor
      · rw [List.length_take, List.length_drop]
        omega
      · intro b hb
        rw [List.mem_iff_getElem?] at hb
        obtain ⟨n, hn⟩ := hb
        have hn4 : n < 4 := by
          by_contra hge
          have hlen' : ((l.drop t).take 4).length ≤ n := by
            rw [List.length_take, List.length_drop]
            omega
          rw [List.getElem?_eq_none hlen'] at hn
          cases hn
        rw [List.getElem?_take_of_lt hn4, List.getElem?_drop] at hn
        rw [hcells n hn4] at hn
        cases hn
        rfl
    rw [← hmid, (show l.drop (t + 4) = (l.drop t).drop 4 from (List.drop_drop 4 t l).symm),
      List.append_assoc, List.take_append_drop, List.take_append_drop]

theorem hasPattern_sliceMap {v n : Nat} {f : Nat → Nat} :
    hasPattern v (sliceMap n f) = true ↔ ∃ t, t + 4 ≤ n ∧ ∀ s < 4, f (t + s) = v := by
  rw [hasPattern_iff, sliceMap_length]
  constructor
  · rintro ⟨t, h4, hc⟩
    refine ⟨t, h4, fun s hs => ?_⟩
    have := hc s hs
    rw [sliceMap_getElem? f (by omega)] at this
    cases this
    rfl
  · rintro ⟨t, h4, hc⟩
    refine ⟨t, h4, fun s hs => ?_⟩
    rw [sliceMap_getElem? f (by omega), hc s hs]

theorem flipCols_length (x : Grid) : (flipCols x).length = x.length := by
  simp [flipCols]

theorem rowAt_flipCols (x : Grid) (r : Nat) :
    rowAt (flipCols x) r = (rowAt x r).reverse := by
  unfold rowAt flipCols
  by_cases hr : r < x.length
  · rw [List.getElem?_map, List.getElem?_eq_getElem hr]
    rfl
  · rw [List.getElem?_eq_none (by simpa using Nat.le_of_not_lt hr),
      List.getElem?_eq_none (Nat.le_of_not_lt hr)]
    rfl

theorem cellAt_flipCols {x : Grid} (hWF : gridWF x) {r c : Nat} (hr : r < 6) (hc : c < 7) :
    cellAt (flipCols x) r c = cellAt x r (6 - c) := by
  unfold cellAt
  rw [rowAt_flipCols]
  have h7 : (rowAt x r).length = 7 := hWF.2 r hr
  rw [List.getElem?_reverse (by omega), h7]

theorem vert_char {x : Grid} (hWF : gridWF x) {i j v : Nat} :
    hasPattern v (sliceMap (min (i + 4) x.length - (i - 3))
      (fun t => cellAt x (i - 3 + t) j)) = true ↔ fourInColumn x i j v := by
  rw [hWF.1, hasPattern_sliceMap]
  unfold fourInColumn
  constructor
  · rintro ⟨t, h4, hc⟩
    refine ⟨i - 3 + t, by omega, by omega, fun s hs => ?_⟩
    rw [Nat.add_assoc]
    exact hc s hs
  · rintro ⟨r, hr1, hr2, hc⟩
    refine ⟨r - (i - 3), by omega, fun s hs => ?_⟩
    rw [(show i - 3 + (r - (i - 3) + s) = r + s by omega)]
    exact hc s hs

theorem horiz_char {x : Grid} (hWF : gridWF x) {i j v : Nat} (hi : i < 6) :
    hasPattern v (sliceMap (min (j + 4) (rowAt x i).length - (j - 3))
      (fun t => cellAt x i (j - 3 + t))) = true ↔ fourInRow x i j v := by
  rw [hWF.2 i hi, hasPattern_sliceMap]
  unfold fourInRow
  constructor
  · rintro ⟨t, h4, hc⟩
    refine ⟨j - 3 + t, by omega, by omega, fun s hs => ?_⟩
    rw [Nat.add_assoc]
    exact hc s hs
  · rintro ⟨c, hc1, hc2, hc⟩
    refine ⟨c - (j - 3), by omega, fun s hs => ?_⟩
    rw [(show j - 3 + (c - (j - 3) + s) = c + s by omega)]
    exact hc s hs

theorem diag_char {x : Grid} (hWF : gridWF x) {i j v : Nat} :
    hasPattern v (npDiagonal x ((j : Int) - (i : Int))) = true ↔ fourInDiag x i j v := by
  unfold npDiagonal
  simp only [flipCols_length, hWF.1, hWF.2 0 (by omega)]
  by_cases hij : i ≤ j
  · rw [if_pos (by omega), (show ((j : Int) - (i : Int)).toNat = j - i by omega),
      hasPattern_sliceMap]
    unfold fourInDiag
    constructor
    · rintro ⟨t, h4, hc⟩
      refine ⟨t, t + (j - i), by omega, by omega, by omega, fun s hs => ?_⟩
      rw [(show t + (j - i) + s = t + s + (j - i) by omega)]
      exact hc s hs
    · rintro ⟨r, c, hd, hr4, hc4, hc⟩
      refine ⟨r, by omega, fun s hs => ?_⟩
      rw [(show r + s + (j - i) = c + s by omega)]
      exact hc s hs
  · rw [if_neg (by omega), (show (-((j : Int) - (i : Int))).toNat = i - j by omega),
      hasPattern_sliceMap]
    unfold fourInDiag
    constructor
    · rintro ⟨t, h4, hc⟩
      refine ⟨t + (i - j), t, by omega, by omega, by omega, fun s hs => ?_⟩
      rw [(show t + (i - j) + s = t + s + (i - j) by omega)]
      exact hc s hs
    · rintro ⟨r, c, hd, hr4, hc4, hc⟩
      refine ⟨c, by omega, fun s hs => ?_⟩
      rw [(show c + s + (i - j) = r + s by omega)]
      exact hc s hs

theorem antidiag_char {x : Grid} (hWF : gridWF x) {i j v : Nat} :
    hasPattern v (npDiagonal (flipCols x) ((x.length : Int) - ((i + j : Nat) : Int))) = true
      ↔ fourInAntiDiag x i j v := by
  unfold npDiagonal
  have hflip0 : (rowAt (flipCols x) 0).length = 7 := by
    rw [rowAt_flipCols, List.length_reverse]
    exact hWF.2 0 (by omega)
  simp only [flipCols_length, hWF.1, hflip0]
  by_cases hij : i + j ≤ 6
  · rw [if_pos (by omega),
      (show (((6 : Nat) : Int) - ((i + j : Nat) : Int)).toNat = 6 - (i + j) by omega),
      hasPattern_sliceMap]
    unfold fourInAntiDiag
    constructor
    · rintro ⟨t, h4, hc⟩
      refine ⟨t, i + j - t, by omega, by omega, by omega, by omega, fun s hs => ?_⟩
      have hcell := hc s hs
      rw [cellAt_flipCols hWF (by omega) (by omega)] at hcell
      rw [(show i + j - t - s = 6 - (t + s + (6 - (i + j))) by omega)]
      exact hcell
    · rintro ⟨r, c, hrc, hr4, hc3, hc6, hc⟩
      refine ⟨r, by omega, fun s hs => ?_⟩
      rw [cellAt_flipCols hWF (by omega) (by omega)]
      rw [(show 6 - (r + s + (6 - (i + j))) = c - s by omega)]
      exact hc s hs
  · rw [if_neg (by omega),
      (show (-(((6 : Nat) : Int) - ((i + j : Nat) : Int))).toNat = i + j - 6 by omega),
      hasPattern_sliceMap]
    unfold fourInAntiDiag
    constructor
    · rintro ⟨t, h4, hc⟩
      refine ⟨t + (i + j - 6), 6 - t, by omega, by omega, by omega, by omega, fun s hs => ?_⟩
      have hcell := hc s hs
      rw [cellAt_flipCols hWF (by omega) (by omega)] at hcell
      rw [(show t + (i + j - 6) + s = t + s + (i + j - 6) by omega),
        (show 6 - t - s = 6 - (t + s) by omega)]
      exact hcell
    · rintro ⟨r, c, hrc, hr4, hc3, hc6, hc⟩
      refine ⟨6 - c, by omega, fun s hs => ?_⟩
      rw [cellAt_flipCols hWF (by omega) (by omega)]
      rw [(show 6 - c + s + (i + j - 6) = r + s by omega),
        (show 6 - (6 - c + s) = c - s by omega)]
      exact hc s hs

theorem winCheck_iff {x : Grid} (hWF : gridWF x) {i j v : Nat} (hi : i < 6) :
    winCheck x i j v = true ↔ winningPlacement x i j v := by
  unfold winCheck spacesToCheck
  simp only [List.any_cons, List.any_nil, Bool.or_eq_true, Bool.or_false]
  rw [vert_char hWF, horiz_char hWF hi, diag_char hWF, antidiag_char hWF]
  rfl

/-! ### Step facts used by the history and counting claims -/

theorem applyMove_cell_other (g : Game) (m r c : Nat)
    (h : r ≠ landingRow g m ∨ c ≠ m) :
    cellAt (g.applyMove m).state r c = cellAt g.state r c := by
  rw [applyMove_state]
  exact cellAt_setCell_ne _ h

theorem applyMove_cell_self {g : Game} {m : Nat} (hInv : Inv g) (hm : m ∈ g.legal_plays) :
    cellAt (g.applyMove m).state (landingRow g m) m = g.current_player.value := by
  obtain ⟨hw, hm7, hcnt, hlr, hlr6, hcell, hval⟩ := legal_sound hInv hm
  rw [applyMove_state]
  exact cellAt_setCell_self _ (by rw [hInv.2.1.1]; omega) (by rw [hInv.2.1.2 _ hlr6]; omega)

set_option maxHeartbeats 2000000 in
theorem occupiedCount_applyMove {g : Game} {m : Nat} (hInv : Inv g)
    (hm : m ∈ g.legal_plays) :
    occupiedCount (g.applyMove m) = occupiedCount g + 1 := by
  obtain ⟨hw, hm7, hcnt, hlr, hlr6, hcell, hval⟩ := legal_sound hInv hm
  have hself := applyMove_cell_self hInv hm
  have hvne : g.current_player.value ≠ 0 := by rcases hval with h | h <;> omega
  have hbs := hInv.1
  unfold occupiedCount
  rw [applyMove_board_size, hbs]
  apply sum_map_flip _ _ _ (landingRow g m) (List.nodup_range 6)
    (List.mem_range.mpr hlr6)
  · intro r _ hr
    congr 1
    apply List.filter_congr
    intro c _
    rw [applyMove_cell_other g m r c (Or.inl hr)]
  · exact filter_length_flip (List.range 7) _ _ m (List.nodup_range 7)
      (List.mem_range.mpr hm7)
      (fun c _ hc => by rw [applyMove_cell_other g m _ c (Or.inr hc)])
      (by simp [hself, hvne])
      (by simp [hcell])

theorem play_history {g g' : Game} {mv : Option Nat} {k : Nat}
    (h : g.play mv k = Except.ok g') :
    g'.history = if g.save_history then g.history ++ [g'.state] else [g'.state] := by
  obtain ⟨_, heq⟩ := play_ok_cases h
  rw [heq, applyMove_history]

theorem play_save_history {g g' : Game} {mv : Option Nat} {k : Nat}
    (h : g.play mv k = Except.ok g') : g'.save_history = g.save_history := by
  obtain ⟨_, heq⟩ := play_ok_cases h
  rw [heq, applyMove_save_history]

theorem applyPlays_hist_true : ∀ (ms : List Nat) (g g₁ : Game), Inv g →
    g.save_history = true → applyPlays g ms = some g₁ →
    g₁.save_history = true ∧ g₁.history.length = g.history.length + ms.length ∧
      g₁.history.head? = g.history.head? := by
  intro ms
  induction ms with
  | nil =>
      intro g g₁ hInv hsv h
      simp only [applyPlays, Option.some.injEq] at h
      rw [← h]
      exact ⟨hsv, by simp, rfl⟩
  | cons m rest ih =>
      intro g g₁ hInv hsv h
      simp only [applyPlays] at h
      cases hp : g.play (some m) 0 with
      | error e =>
          rw [hp] at h
          cases h
      | ok g' =>
          rw [hp] at h
          have hInv' := inv_play hInv hp
          have hsv' : g'.save_history = true := by rw [play_save_history hp, hsv]
          have hhist : g'.history = g.history ++ [g'.state] := by
            rw [play_history hp, hsv]
            simp
          obtain ⟨h1, h2, h3⟩ := ih g' g₁ hInv' hsv' h
          refine ⟨h1, ?_, ?_⟩
          · rw [h2, hhist]
            simp only [List.length_append, List.length_cons, List.length_nil]
            omega
          · rw [h3, hhist, List.head?_append]
            cases hl : g.history with
            | nil => exact absurd hl hInv.2.2.2.2.1
            | cons a t => rfl

theorem applyPlays_nosave : ∀ (ms : List Nat) (g g₁ : Game), Inv g →
    g.save_history = false → g.history = [g.state] → applyPlays g ms = some g₁ →
    g₁.save_history = false ∧ g₁.history = [g₁.state] := by
  intro ms
  induction ms with
  | nil =>
      intro g g₁ hInv hsv hh h
      simp only [applyPlays, Option.some.injEq] at h
      rw [← h]
      exact ⟨hsv, hh⟩
  | cons m rest ih =>
      intro g g₁ hInv hsv hh h
      simp only [applyPlays] at h
      cases hp : g.play (some m) 0 with
      | error e =>
          rw [hp] at h
          cases h
      | ok g' =>
          rw [hp] at h
          have hInv' := inv_play hInv hp
          have hsv' : g'.save_history = false := by rw [play_save_history hp, hsv]
          have hhist : g'.history = [g'.state] := by
            rw [play_history hp, hsv]
            simp
          exact ih g' g₁ hInv' hsv' hhist h

theorem reachable_applyPlays : ∀ (ms : List Nat) (g g₁ : Game), Reachable g →
    applyPlays g ms = some g₁ → Reachable g₁ := by
  intro ms
  induction ms with
  | nil =>
      intro g g₁ hg h
      simp only [applyPlays, Option.some.injEq] at h
      rw [← h]
      exact hg
  | cons m rest ih =>
      intro g g₁ hg h
      simp only [applyPlays] at h
      cases hp : g.play (some m) 0 with
      | error e =>
          rw [hp] at h
          cases h
      | ok g' =>
          rw [hp] at h
          exact ih g' g₁ (Reachable.step (some m) 0 hg hp) h

theorem colCount_init (sh : Bool) (c : Nat) : colCount (initGame 6 7 sh) c = 0 := by
  unfold colCount
  have : ∀ r ∈ List.range (initGame 6 7 sh).state.length,
      ¬((cellAt (initGame 6 7 sh).state r c != 0) = true) := by
    intro r _
    have hc : cellAt (initGame 6 7 sh).state r c = 0 := cellAt_init r c
    simp [hc]
  rw [List.filter_eq_nil_iff.mpr this]
  rfl

theorem colFree_pos_iff {g : Game} (hInv : Inv g) (c : Nat) :
    colFree g c ≠ 0 ↔ ∃ r < 6, cellAt g.state r c = 0 := by
  obtain ⟨hbs, hWF, hpl, hcp, hh, hvals, hbot⟩ := hInv
  unfold colFree
  constructor
  · intro hne0
    have hne : (List.range g.board_size.1).filter
        (fun r => !(g.players_values.contains (cellAt g.state r c))) ≠ [] := by
      intro hnil
      exact hne0 (by rw [hnil]; rfl)
    obtain ⟨r, hrmem⟩ := List.exists_mem_of_ne_nil _ hne
    rw [List.mem_filter] at hrmem
    obtain ⟨hrr, hrp⟩ := hrmem
    rw [hbs] at hrr
    refine ⟨r, List.mem_range.mp hrr, ?_⟩
    rw [players_values_eq hpl] at hrp
    rcases hvals r c with h0 | h1 | h2
    · exact h0
    · rw [h1] at hrp
      simp at hrp
    · rw [h2] at hrp
      simp at hrp
  · rintro ⟨r, hr6, hr0⟩
    have hmem : r ∈ (List.range g.board_size.1).filter
        (fun r => !(g.players_values.contains (cellAt g.state r c))) := by
      rw [List.mem_filter]
      refine ⟨by rw [hbs]; exact List.mem_range.mpr hr6, ?_⟩
      rw [players_values_eq hpl, hr0]
      rfl
    have := List.length_pos_of_mem hmem
    omega

theorem applyMove_winner_iff {g : Game} {m : Nat} (hInv : Inv g)
    (hm : m ∈ g.legal_plays) :
    ((g.applyMove m).winner_ = some g.current_player ↔
      winningPlacement (g.applyMove m).state (landingRow g m) m g.current_player.value) ∧
    (¬ winningPlacement (g.applyMove m).state (landingRow g m) m g.current_player.value →
      (g.applyMove m).winner_ = none) := by
  obtain ⟨hw, hm7, hcnt, hlr, hlr6, hcell, hval⟩ := legal_sound hInv hm
  have hWF' : gridWF (g.applyMove m).state := by
    rw [applyMove_state]
    exact gridWF_setCell _ _ _ hInv.2.1
  have hiff := winCheck_iff hWF' hlr6 (j := m) (v := g.current_player.value)
  rw [applyMove_winner]
  by_cases hwc : winCheck (g.applyMove m).state (landingRow g m) m
      g.current_player.value = true
  · rw [if_pos hwc]
    exact ⟨⟨fun _ => hiff.mp hwc, fun _ => rfl⟩, fun hn => absurd (hiff.mp hwc) hn⟩
  · rw [if_neg hwc]
    constructor
    · constructor
      · intro hh
        rw [hw] at hh
        cases hh
      · intro hwp
        exact absurd (hiff.mpr hwp) hwc
    · intro _
      exact hw

/-! ### The claims -/

/-- C1: after an accepted move by the current player landing at cell (i, j),
the winner is set to that player if and only if one of the four checked lines
through (i, j) — the vertical segment of column j, the horizontal segment of
row i, and the two diagonals through (i, j) — contains four consecutive cells
all occupied by that player; when no such segment exists, no winner is set. -/
theorem C1_win_detection {g g' : Game} (hg : Reachable g) (mv : Option Nat)
    (k : Nat) (h : g.play mv k = Except.ok g') :
    (g'.winner_ = some g.current_player ↔
      winningPlacement g'.state (landingRow g (playedCol g mv k)) (playedCol g mv k)
        g.current_player.value) ∧
    (¬ winningPlacement g'.state (landingRow g (playedCol g mv k)) (playedCol g mv k)
        g.current_player.value → g'.winner_ = none) := by
  have hInv := reachable_inv hg
  obtain ⟨hmem, heq⟩ := play_ok_cases h
  rw [heq]
  exact applyMove_winner_iff hInv hmem

/-- C2: an accepted play into column c lands at row
rows - (number of occupied cells of column c) - 1; that cell goes from Empty
to the current player's non-zero value, every other cell is unchanged, and
the total occupied-cell count grows by exactly one. -/
theorem C2_gravity_drop {g g' : Game} (hg : Reachable g) (c k : Nat)
    (h : g.play (some c) k = Except.ok g') :
    cellAt g.state (g.board_size.1 - colCount g c - 1) c = 0 ∧
    cellAt g'.state (g.board_size.1 - colCount g c - 1) c = g.current_player.value ∧
    g.current_player.value ≠ 0 ∧
    (∀ r' c', ¬(r' = g.board_size.1 - colCount g c - 1 ∧ c' = c) →
      cellAt g'.state r' c' = cellAt g.state r' c') ∧
    occupiedCount g' = occupiedCount g + 1 := by
  have hInv := reachable_inv hg
  obtain ⟨hm, heq⟩ := play_some_ok.mp h
  obtain ⟨hw, hm7, hcnt, hlr, hlr6, hcell, hval⟩ := legal_sound hInv hm
  have hvne : g.current_player.value ≠ 0 := by rcases hval with hv | hv <;> omega
  refine ⟨hcell, ?_, hvne, ?_, ?_⟩
  · rw [heq]
    exact applyMove_cell_self hInv hm
  · intro r' c' hrc
    rw [heq]
    exact applyMove_cell_other g c r' c' (not_and_or.mp hrc)
  · rw [heq]
    exact occupiedCount_applyMove hInv hm

/-- C3: in every reachable state, legal_plays is exactly the ascending list of
column indices that still contain an Empty cell, and is empty whenever the
winner is set, regardless of remaining free cells; the query is a pure
function of the state. -/
theorem C3_legal_plays {g : Game} (hg : Reachable g) :
    (g.winner ≠ none → g.legal_plays = []) ∧
    (∀ c, c ∈ g.legal_plays ↔
      g.winner = none ∧ c < 7 ∧ ∃ r < 6, cellAt g.state r c = 0) ∧
    g.legal_plays.Pairwise (· < ·) := by
  have hInv := reachable_inv hg
  refine ⟨fun hw => legal_plays_of_winner hw, ?_, legal_plays_sorted g⟩
  intro c
  rw [mem_legal_plays]
  have hbs := hInv.1
  constructor
  · rintro ⟨hw, hc, hfree⟩
    refine ⟨hw, by rw [hbs] at hc; exact hc, (colFree_pos_iff hInv c).mp hfree⟩
  · rintro ⟨hw, hc, hfree⟩
    exact ⟨hw, by rw [hbs]; exact hc, (colFree_pos_iff hInv c).mpr hfree⟩

/-- C4: an explicitly supplied move outside legal_plays — full columns as well
as out-of-range columns such as 7 — makes play fail with the IllegalMove
error; in this pure embedding the failing call returns no successor state, so
the game state is left untouched. -/
theorem C4_illegal_move (g : Game) (m k : Nat) (h : m ∉ g.legal_plays) :
    g.play (some m) k = Except.error PlayError.illegalMove :=
  play_illegal h

/-- C5: play without an explicit move fails with NoLegalMoves exactly when the
legal set is empty, and otherwise applies a member of the legal set. -/
theorem C5_random_selection (g : Game) (k : Nat) :
    (g.legal_plays = [] → g.play none k = Except.error PlayError.noLegalMoves) ∧
    (g.legal_plays ≠ [] → selectedRandom g.legal_plays k ∈ g.legal_plays ∧
      g.play none k = Except.ok (g.applyMove (selectedRandom g.legal_plays k))) := by
  constructor
  · intro h
    exact play_no_legal h
  · intro h
    exact ⟨selectedRandom_mem k h, play_none_ok.mpr ⟨h, rfl⟩⟩

/-- C6: the current player is always one of the two registered players, and an
accepted play hands the turn to the other player exactly when it did not
produce a winner; a winning move leaves the mover as current player. -/
theorem C6_rotation {g : Game} (hg : Reachable g) :
    (g.current_player = pA ∨ g.current_player = pB) ∧ g.players = [pA, pB] ∧
    (∀ mv k g', g.play mv k = Except.ok g' →
      (g'.winner_ = none → (g'.current_player = pA ∨ g'.current_player = pB) ∧
        g'.current_player ≠ g.current_player) ∧
      (g'.winner_ ≠ none → g'.current_player = g.current_player)) := by
  have hInv := reachable_inv hg
  refine ⟨hInv.2.2.2.1, hInv.2.2.1, ?_⟩
  intro mv k g' h
  obtain ⟨hmem, heq⟩ := play_ok_cases h
  have hw : g.winner_ = none := (mem_legal_plays.mp hmem).1
  constructor
  · intro hwn
    have hcur : g'.current_player = g.next_player := by
      rw [heq, applyMove_current]
      by_cases hwc : winCheck (g.applyMove (playedCol g mv k)).state
          (landingRow g (playedCol g mv k)) (playedCol g mv k)
          g.current_player.value = true
      · exfalso
        rw [heq, applyMove_winner, if_pos hwc] at hwn
        cases hwn
      · rw [if_neg hwc]
    obtain ⟨hmem', hne⟩ := next_player_mem hInv.2.2.1 hInv.2.2.2.1
    rw [hcur]
    exact ⟨hmem', hne⟩
  · intro hws
    rw [heq, applyMove_current]
    by_cases hwc : winCheck (g.applyMove (playedCol g mv k)).state
        (landingRow g (playedCol g mv k)) (playedCol g mv k)
        g.current_player.value = true
    · rw [if_pos hwc]
    · exfalso
      rw [heq, applyMove_winner, if_neg hwc] at hws
      exact hws hw

/-- C7: with history retention enabled, a state reached by a list of accepted
moves has number-of-moves + 1 snapshots, the first snapshot is the empty
grid, and every further accepted move appends exactly one snapshot equal to
the post-move grid without touching the earlier ones; with retention
disabled, the history holds only the current snapshot. -/
theorem C7_history (ms : List Nat) (g₁ g₂ : Game)
    (h₁ : applyPlays (initGame 6 7 true) ms = some g₁)
    (h₂ : applyPlays (initGame 6 7 false) ms = some g₂) :
    g₁.history.length = ms.length + 1 ∧
    g₁.history.head? = some (List.replicate 6 (List.replicate 7 0)) ∧
    (∀ mv k g', g₁.play mv k = Except.ok g' → g'.history = g₁.history ++ [g'.state]) ∧
    g₂.history = [g₂.state] := by
  obtain ⟨hsv₁, hlen₁, hhd₁⟩ := applyPlays_hist_true ms _ g₁ (inv_init true) rfl h₁
  obtain ⟨hsv₂, hh₂⟩ := applyPlays_nosave ms _ g₂ (inv_init false) rfl rfl h₂
  refine ⟨?_, ?_, ?_, hh₂⟩
  · rw [hlen₁]
    simp [initGame]
    omega
  · rw [hhd₁]
    rfl
  · intro mv k g' h
    rw [play_history h, hsv₁]
    simp

/-- C8: the winner field is None at construction, an accepted play requires it
to still be None and sets it at most to the mover, and once it is non-None no
later play can be accepted, so the winner is set at most once and never
cleared or changed. -/
theorem C8_winner_monotone :
    (∀ rows cols sh, (initGame rows cols sh).winner_ = none) ∧
    (∀ g : Game, ∀ mv k g', g.play mv k = Except.ok g' →
      g.winner_ = none ∧ (g'.winner_ = none ∨ g'.winner_ = some g.current_player)) ∧
    (∀ g : Game, g.winner_ ≠ none → ∀ mv k g', g.play mv k ≠ Except.ok g') := by
  refine ⟨fun _ _ _ => rfl, ?_, ?_⟩
  · intro g mv k g' h
    obtain ⟨hmem, heq⟩ := play_ok_cases h
    have hw : g.winner_ = none := (mem_legal_plays.mp hmem).1
    refine ⟨hw, ?_⟩
    rw [heq, applyMove_winner]
    by_cases hwc : winCheck (g.applyMove (playedCol g mv k)).state
        (landingRow g (playedCol g mv k)) (playedCol g mv k)
        g.current_player.value = true
    · rw [if_pos hwc]
      exact Or.inr rfl
    · rw [if_neg hwc]
      exact Or.inl hw
  · intro g hw mv k g' h
    obtain ⟨hmem, _⟩ := play_ok_cases h
    exact hw (mem_legal_plays.mp hmem).1

/-- C9 counterexample: the claim says the column AND row pair of the placed
piece is recorded as the last play, but the code stores only the column
(self.last_play = selected_move).  Two successive drops into column 0 land at
rows 5 and 4 respectively, yet both leave exactly the same last-play record
some 0, so the landing row is not recoverable from the record. -/
theorem C9_last_play_cex :
    (playOk (initGame 6 7 true) (some 0) 0).last_play = some 0 ∧
    (playOk (playOk (initGame 6 7 true) (some 0) 0) (some 0) 0).last_play = some 0 ∧
    cellAt (playOk (initGame 6 7 true) (some 0) 0).state 5 0 = 1 ∧
    cellAt (playOk (playOk (initGame 6 7 true) (some 0) 0) (some 0) 0).state 4 0 = 2 ∧
    (5 : Nat) ≠ 4 := by
  refine ⟨rfl, rfl, rfl, rfl, by omega⟩

/-- C9 (amended): after every accepted play, the column of the placed piece —
and only the column, not the landing row — is recorded as the last play. -/
theorem C9_last_play_amended (g : Game) (mv : Option Nat) (k : Nat) (g' : Game)
    (h : g.play mv k = Except.ok g') : g'.last_play = some (playedCol g mv k) := by
  obtain ⟨_, heq⟩ := play_ok_cases h
  rw [heq, applyMove_last_play]

/-- C10: a new game registers players A (value 1, display O) and B (value 2,
display X) in this order, starts with current player A, and the first
accepted move therefore writes value 1 into the landing cell at row 5. -/
theorem C10_initial_players :
    (∀ sh, (initGame 6 7 sh).players = [pA, pB] ∧
      (initGame 6 7 sh).current_player = pA ∧
      pA = ⟨"A", 1, "O"⟩ ∧ pB = ⟨"B", 2, "X"⟩) ∧
    (∀ sh mv k g', (initGame 6 7 sh).play mv k = Except.ok g' →
      cellAt g'.state 5 (playedCol (initGame 6 7 sh) mv k) = 1) := by
  refine ⟨fun sh => ⟨rfl, rfl, rfl, rfl⟩, ?_⟩
  intro sh mv k g' h
  obtain ⟨hmem, heq⟩ := play_ok_cases h
  have hInv := inv_init sh
  have h5 : landingRow (initGame 6 7 sh) (playedCol (initGame 6 7 sh) mv k) = 5 := by
    unfold landingRow
    rw [colCount_init]
    rfl
  have hcell := applyMove_cell_self hInv hmem
  rw [h5] at hcell
  rw [heq]
  exact hcell

/-! ### Witnesses -/

/-- Witness for C1: starting from the reachable position built by the move
list [3, 0, 3, 0, 3, 0], the accepted move 3 completes a vertical
four-in-a-row of player A, and the theorem together with the explicit
winning column forces the winner to be set to the mover. -/
theorem C1_win_detection_witness :
    (playOk (applyPlaysD (initGame 6 7 true) [3, 0, 3, 0, 3, 0]) (some 3) 0).winner_ =
      some (applyPlaysD (initGame 6 7 true) [3, 0, 3, 0, 3, 0]).current_player := by
  have hr : Reachable (applyPlaysD (initGame 6 7 true) [3, 0, 3, 0, 3, 0]) :=
    reachable_applyPlays [3, 0, 3, 0, 3, 0] _ _ (Reachable.base true) rfl
  exact (C1_win_detection hr (some 3) 0 rfl).1.mpr
    (Or.inl ⟨2, by decide, by decide, by decide⟩)

/-- Witness for C2: the first drop into column 3 of a fresh game raises the
occupied-cell count from its initial value by exactly one. -/
theorem C2_gravity_drop_witness :
    occupiedCount (playOk (initGame 6 7 true) (some 3) 0) =
      occupiedCount (initGame 6 7 true) + 1 :=
  (C2_gravity_drop (Reachable.base true) 3 0 rfl).2.2.2.2

/-- Witness for C3: in the fresh game, column 3 is legal exactly because the
winner is unset and the column still has an empty cell. -/
theorem C3_legal_plays_witness :
    3 ∈ (initGame 6 7 true).legal_plays ↔
      (initGame 6 7 true).winner = none ∧ 3 < 7 ∧
        ∃ r < 6, cellAt (initGame 6 7 true).state r 3 = 0 :=
  (C3_legal_plays (Reachable.base true)).2.1 3

/-- Witness for C4: requesting column 7 on the 7-column board fails with the
IllegalMove error. -/
theorem C4_illegal_move_witness :
    (initGame 6 7 true).play (some 7) 0 = Except.error PlayError.illegalMove :=
  C4_illegal_move (initGame 6 7 true) 7 0 (by decide)

/-- Witness for C5: on a fresh game an omitted move succeeds with a member of
the legal set, and on a game whose winner is already set it fails with the
NoLegalMoves error. -/
theorem C5_random_selection_witness :
    (initGame 6 7 true).play none 5 = Except.ok ((initGame 6 7 true).applyMove
      (selectedRandom (initGame 6 7 true).legal_plays 5)) ∧
    ({ initGame 6 7 true with winner_ := some pA } : Game).play none 0 =
      Except.error PlayError.noLegalMoves :=
  ⟨((C5_random_selection (initGame 6 7 true) 5).2 (by decide)).2,
   (C5_random_selection { initGame 6 7 true with winner_ := some pA } 0).1 rfl⟩

/-- Witness for C6: the accepted first move of a fresh game produces no winner
and hands the turn to the other player. -/
theorem C6_rotation_witness :
    (playOk (initGame 6 7 true) (some 3) 0).current_player ≠
      (initGame 6 7 true).current_player :=
  ((((C6_rotation (Reachable.base true)).2.2 (some 3) 0
    (playOk (initGame 6 7 true) (some 3) 0) rfl).1) rfl).2

/-- Witness for C7: after the accepted moves [3, 4], the retained history has
three snapshots while the retention-disabled history is just the current
grid. -/
theorem C7_history_witness :
    (applyPlaysD (initGame 6 7 true) [3, 4]).history.length = 3 ∧
    (applyPlaysD (initGame 6 7 false) [3, 4]).history =
      [(applyPlaysD (initGame 6 7 false) [3, 4]).state] :=
  ⟨(C7_history [3, 4] _ _ rfl rfl).1, (C7_history [3, 4] _ _ rfl rfl).2.2.2⟩

/-- Witness for C8: a fresh game has no winner, and its first accepted move
leaves the winner either unset or equal to the mover. -/
theorem C8_winner_monotone_witness :
    (initGame 6 7 true).winner_ = none ∧
    ((playOk (initGame 6 7 true) (some 3) 0).winner_ = none ∨
      (playOk (initGame 6 7 true) (some 3) 0).winner_ =
        some (initGame 6 7 true).current_player) :=
  ⟨C8_winner_monotone.1 6 7 true,
   (C8_winner_monotone.2.1 (initGame 6 7 true) (some 3) 0
     (playOk (initGame 6 7 true) (some 3) 0) rfl).2⟩

/-- Witness for C9 (amended): the accepted move into column 2 records the
column 2 as the last play. -/
theorem C9_last_play_amended_witness :
    (playOk (initGame 6 7 true) (some 2) 0).last_play = some 2 :=
  C9_last_play_amended (initGame 6 7 true) (some 2) 0
    (playOk (initGame 6 7 true) (some 2) 0) rfl

/-- Witness for C10: the first accepted move of a fresh game, here into
column 4, writes value 1 at row 5 of that column. -/
theorem C10_initial_players_witness :
    cellAt (playOk (initGame 6 7 true) (some 4) 0).state 5
      (playedCol (initGame 6 7 true) (some 4) 0) = 1 :=
  C10_initial_players.2 true (some 4) 0
    (playOk (initGame 6 7 true) (some 4) 0) rfl

end Connect4
